import Mathlib

/-!
Verification of the `nettle` DHT node against its specification.

The Rust source is shallowly embedded: `[u8; 32]` tags become lists of natural
numbers below 256 (most significant byte first, matching both the derived
lexicographic `Ord` on `[u8; 32]` and the scan order of `Tag::level`), machine
integers become `Nat` with explicit bounds, and the node's stateful operations
become pure functions on an explicit state, with every network send surfaced as
an explicit input (the response fed by the transport) or output (the message
handed to the transport).
-/

set_option maxRecDepth 100000

namespace Nettle

/-- A 32-byte tag from `tag.rs`, most significant byte first. -/
abbrev Tag := List Nat

/-- Well-formedness of an embedded `[u8; 32]`: 32 bytes, each below 256. -/
def tagWF (t : Tag) : Prop := t.length = 32 ∧ ∀ b ∈ t, b < 256

instance (t : Tag) : Decidable (tagWF t) := by
  unfold tagWF; infer_instance

/-- `Tag::dist_to`: byte-wise XOR. -/
def Tag.distTo (a b : Tag) : Tag := List.zipWith (fun x y => Nat.xor x y) a b

/-- Fuel-driven floor of the base-2 logarithm; with fuel `f` it is exact for
    arguments below `2 ^ f`.  Embeds Rust's `uN::ilog2` (only ever called on
    nonzero values in the source). -/
def ilog2Fuel : Nat → Nat → Nat
  | 0, _ => 0
  | f + 1, n => if 2 ≤ n then ilog2Fuel f (n / 2) + 1 else 0

/-- The scan inside `Tag::level`: index and value of the first nonzero byte
    (i.e. of the most significant nonzero byte), if any. -/
def levelFind : Nat → List Nat → Option (Nat × Nat)
  | _, [] => none
  | i, b :: rest => if b ≠ 0 then some (i, b) else levelFind (i + 1) rest

/-- `Tag::level` from `tag.rs`:
    `self.0.into_iter().enumerate().find_map(|(i, b)| if b != 0 \x7b
       Some(255 - i as u16 * 8 - b.ilog2() as u16) \x7d else \x7b None \x7d).unwrap_or(0)`. -/
def Tag.level (t : Tag) : Nat :=
  match levelFind 0 t with
  | some (i, b) => 255 - i * 8 - ilog2Fuel 8 b
  | none => 0

/-- The claim's reading of `level`: the tag as a 256-bit big-endian integer. -/
def tagToNat (t : Tag) : Nat := t.foldl (fun acc b => acc * 256 + b) 0

/-- The claim's reading of `level`: `255 − bit_index_of_most_significant_one`
    of the big-endian value, with the all-zero tag mapped to `0`. -/
def claimedLevel (t : Tag) : Nat :=
  if tagToNat t = 0 then 0 else 255 - ilog2Fuel 256 (tagToNat t)

/-- The tag with only its most significant bit set. -/
def topBitTag : Tag := 128 :: List.replicate 31 0

/-! ### SHA3-256 (the `sha3` crate's `Sha3_256`, FIPS 202), used by `Tag::digest` -/

/-- Mask of 64 one bits: lanes are `u64`. -/
def M64 : Nat := 18446744073709551615

/-- Rotate a 64-bit lane left by `r` bits (`0 ≤ r < 64`). -/
def rotl64 (n r : Nat) : Nat :=
  Nat.lor (Nat.land (n <<< r) M64) (n >>> (64 - r))

/-- Bitwise complement within 64 bits. -/
def not64 (n : Nat) : Nat := Nat.xor n M64

/-- Keccak state: 25 lanes, lane `(x, y)` at flat index `x + 5 * y`. -/
def lane (s : List Nat) (x y : Nat) : Nat := s.getD (x % 5 + 5 * (y % 5)) 0

def thetaC (s : List Nat) (x : Nat) : Nat :=
  Nat.xor (lane s x 0)
    (Nat.xor (lane s x 1) (Nat.xor (lane s x 2) (Nat.xor (lane s x 3) (lane s x 4))))

def thetaD (s : List Nat) (x : Nat) : Nat :=
  Nat.xor (thetaC s (x + 4)) (rotl64 (thetaC s (x + 1)) 1)

def thetaStep (s : List Nat) : List Nat :=
  (List.range 25).map (fun idx => Nat.xor (s.getD idx 0) (thetaD s (idx % 5)))

/-- Keccak rotation offsets: row `y` holds the offsets of lanes `(0..4, y)`. -/
def rotOffsets : List (List Nat) :=
  [[0, 1, 62, 28, 27],
    [36, 44, 6, 55, 20],
    [3, 10, 43, 25, 39],
    [41, 45, 15, 21, 8],
    [18, 2, 61, 56, 14]]

def rhoPiStep (s : List Nat) : List Nat :=
  (List.range 25).map (fun idx =>
    let xo := idx % 5
    let yo := idx / 5
    let xi := (xo + 3 * yo) % 5
    let yi := xo
    rotl64 (lane s xi yi) ((rotOffsets.getD yi []).getD xi 0))

def chiStep (s : List Nat) : List Nat :=
  (List.range 25).map (fun idx =>
    let x := idx % 5
    let y := idx / 5
    Nat.xor (lane s x y) (Nat.land (not64 (lane s (x + 1) y)) (lane s (x + 2) y)))

/-- The 24 Keccak round constants (decimal values of the usual hex table). -/
def roundConsts : List Nat :=
  [1,
    32898,
    9223372036854808714,
    9223372039002292224,
    32907,
    2147483649,
    9223372039002292353,
    9223372036854808585,
    138,
    136,
    2147516425,
    2147483658,
    2147516555,
    9223372036854775947,
    9223372036854808713,
    9223372036854808579,
    9223372036854808578,
    9223372036854775936,
    32778,
    9223372039002259466,
    9223372039002292353,
    9223372036854808704,
    2147483649,
    9223372039002292232]

def iotaStep (s : List Nat) (rc : Nat) : List Nat :=
  match s with
  | [] => []
  | a :: rest => Nat.xor a rc :: rest

/-- The permutation keccak-f[1600]: 24 rounds of θ, ρ+π, χ, ι. -/
def keccakP (s : List Nat) : List Nat :=
  roundConsts.foldl (fun st rc => iotaStep (chiStep (rhoPiStep (thetaStep st))) rc) s

/-- Eight little-endian bytes to a 64-bit lane. -/
def bytesToLane (bytes : List Nat) : Nat :=
  bytes.foldr (fun b acc => acc * 256 + b) 0

/-- A 64-bit lane to `k` little-endian bytes. -/
def laneToBytes : Nat → Nat → List Nat
  | 0, _ => []
  | k + 1, n => n % 256 :: laneToBytes k (n / 256)

/-- XOR a 136-byte rate block into the first 17 lanes of the state. -/
def xorIntoState (s : List Nat) (block : List Nat) : List Nat :=
  (List.range 25).map (fun idx =>
    if idx < 17 then Nat.xor (s.getD idx 0) (bytesToLane ((block.drop (8 * idx)).take 8))
    else s.getD idx 0)

def orLast128 : List Nat → List Nat
  | [] => []
  | [b] => [Nat.lor b 128]
  | b :: c :: rest => b :: orLast128 (c :: rest)

/-- SHA3 `pad10*1` with domain separation bits `01`: append `0x06`, zero-fill
    to a multiple of the 136-byte rate, and OR `0x80` into the final byte. -/
def sha3Pad (msg : List Nat) : List Nat :=
  let m := msg ++ [6]
  orLast128 (m ++ List.replicate ((136 - m.length % 136) % 136) 0)

/-- Absorb the padded message block by block; the fuel (list length) strictly
    bounds the number of 136-byte blocks. -/
def absorbFuel : Nat → List Nat → List Nat → List Nat
  | 0, s, _ => s
  | f + 1, s, msg =>
    match msg with
    | [] => s
    | _ => absorbFuel f (keccakP (xorIntoState s (msg.take 136))) (msg.drop 136)

def zeroState : List Nat := List.replicate 25 0

/-- SHA3-256 of a byte string: absorb, then squeeze the first 32 bytes. -/
def sha3x256 (msg : List Nat) : List Nat :=
  let p := sha3Pad msg
  let s := absorbFuel p.length zeroState p
  laneToBytes 8 (s.getD 0 0) ++ laneToBytes 8 (s.getD 1 0) ++
    laneToBytes 8 (s.getD 2 0) ++ laneToBytes 8 (s.getD 3 0)

/-- `Tag::digest`: SHA3-256 of the bytes. -/
def Tag.digest (bytes : List Nat) : Tag := sha3x256 bytes

/-- `Tag::digest_many`: hashing a sequence of `update` calls is hashing the
    concatenation. -/
def Tag.digestMany (parts : List (List Nat)) : Tag := sha3x256 parts.flatten

/-! ### `identity.rs` -/

/-- The slice of `rsa::RsaPublicKey` the core reads: modulus `n` and public
    exponent `e` (`PublicKeyParts`), as unbounded naturals. -/
structure RsaPublicKey where
  n : Nat
  e : Nat
deriving DecidableEq

/-- `num_bigint::BigUint::to_bytes_le` (helper fuel recursion). -/
def natBytesLeFuel : Nat → Nat → List Nat
  | 0, _ => []
  | f + 1, n => if n = 0 then [] else n % 256 :: natBytesLeFuel f (n / 256)

/-- `num_bigint::BigUint::to_bytes_le`: minimal little-endian bytes, `[0]` for
    zero. -/
def bytesLe (n : Nat) : List Nat := if n = 0 then [0] else natBytesLeFuel n n

/-- `Tag::fingerprint`: digest over `[key.n(), key.e()].map(to_bytes_le)`. -/
def Tag.fingerprint (key : RsaPublicKey) : Tag :=
  Tag.digestMany [bytesLe key.n, bytesLe key.e]

structure PublicId where
  tag : Tag
  key : RsaPublicKey
deriving DecidableEq

/-- `From<RsaPublicKey> for PublicId`: the tag is recomputed as the key's
    fingerprint; this is also what deserialization runs (`serde(from)`). -/
def PublicId.ofKey (key : RsaPublicKey) : PublicId :=
  { tag := Tag.fingerprint key, key := key }

/-- `Into<RsaPublicKey> for PublicId`: the serialized form is the key alone
    (`serde(into)`). -/
def PublicId.serialize (p : PublicId) : RsaPublicKey := p.key

/-! ### `lib.rs`: node state and routing table -/

/-- Opaque backend address with value equality (`B::Addr`). -/
abbrev Addr := Nat

/-- `Peer` from `lib.rs`: only an id and an address (no ping field exists). -/
structure Peer where
  id : PublicId
  addr : Addr
deriving DecidableEq

/-- `State<B>`: the slot map as an association list in slot order (fresh keys
    from a counter), the two derived indices, and the content store. -/
structure NodeState where
  nextIdx : Nat
  peers : List (Nat × Peer)
  peersById : List (PublicId × Nat)
  peersByLevel : Nat → List Nat
  data : List (Tag × List Nat)

def initState : NodeState :=
  { nextIdx := 0, peers := [], peersById := [], peersByLevel := fun _ => [],
    data := [] }

def lookupIdx : List (Nat × Peer) → Nat → Option Peer
  | [], _ => none
  | (k, p) :: rest, idx => if k = idx then some p else lookupIdx rest idx

def lookupId : List (PublicId × Nat) → PublicId → Option Nat
  | [], _ => none
  | (i, k) :: rest, id => if i = id then some k else lookupId rest id

def lookupTag : List (Tag × List Nat) → Tag → Option (List Nat)
  | [], _ => none
  | (t, d) :: rest, tag => if t = tag then some d else lookupTag rest tag

def MAX_LEVEL_PEERS : Nat := 2

/-- Lexicographic strict order on byte arrays: the derived `Ord` on `[u8; 32]`,
    used by every `<` and `min_by_key` comparison of XOR distances. -/
def tagLtB : List Nat → List Nat → Bool
  | [], [] => false
  | [], _ :: _ => true
  | _ :: _, [] => false
  | x :: xs, y :: ys => if x < y then true else if y < x then false else tagLtB xs ys

/-- `Iterator::min_by_key`: the first element of minimal key, if any. -/
def minByKeyTag (key : α → Tag) : List α → Option α
  | [] => none
  | x :: xs => some (xs.foldl (fun acc y => if tagLtB (key y) (key acc) then y else acc) x)

/-- The result of `accept_peer`, with its observable effects: the returned
    boolean, whether a ping probe was actually sent, and the state after. -/
structure AcceptResult where
  accepted : Bool
  pingSent : Bool
  state : NodeState

/-- `accept_peer(id, addr)`: if `id` is not self, not already known, and the
    ping probe succeeds, insert into the slot map, `peers_by_id`, and the
    bucket `level(self.tag ^ id.tag)`; else change nothing. The presence check
    short-circuits before the probe, and the `or_insert_with` entry call
    inserts because the id was just seen absent. -/
def acceptPeer (selfId : PublicId) (st : NodeState) (id : PublicId) (addr : Addr)
    (pingOk : Bool) : AcceptResult :=
  if id ≠ selfId ∧ lookupId st.peersById id = none then
    if pingOk then
      let level := Tag.level (Tag.distTo selfId.tag id.tag)
      { accepted := true, pingSent := true, state :=
        { st with
          nextIdx := st.nextIdx + 1,
          peers := st.peers ++ [(st.nextIdx, { id := id, addr := addr })],
          peersById := (id, st.nextIdx) :: st.peersById,
          peersByLevel := fun l =>
            if l = level then st.peersByLevel l ++ [st.nextIdx]
            else st.peersByLevel l } }
    else { accepted := false, pingSent := true, state := st }
  else { accepted := false, pingSent := false, state := st }

/-- `remove_peer(idx)`: remove from the slot map, `peers_by_id`, and the
    peer's level bucket (`retain`). -/
def removePeer (selfId : PublicId) (st : NodeState) (idx : Nat) : NodeState :=
  match lookupIdx st.peers idx with
  | none => st
  | some peer =>
    let level := Tag.level (Tag.distTo selfId.tag peer.id.tag)
    { st with
      peers := st.peers.filter (fun e => e.1 ≠ idx),
      peersById := st.peersById.filter (fun e => e.1 ≠ peer.id),
      peersByLevel := fun l =>
        if l = level then (st.peersByLevel l).filter (fun k => k ≠ idx)
        else st.peersByLevel l }

/-- `can_accept_peer(id)`: not self, the target bucket below capacity, and not
    already known. -/
def canAcceptPeer (selfId : PublicId) (st : NodeState) (id : PublicId) : Bool :=
  id ≠ selfId ∧
    ((st.peersByLevel (Tag.level (Tag.distTo selfId.tag id.tag))).length <
        MAX_LEVEL_PEERS ∧
      lookupId st.peersById id = none)

/-- `discover_peer(supposed_id, addr)`: refuse up-front when a supposed id
    fails `can_accept_peer`; otherwise send a greet (response supplied by the
    transport: `none` is a transport failure) and on a matching `Ok(id)` run
    `accept_peer` (its boolean result is discarded). -/
def discoverPeer (selfId : PublicId) (st : NodeState) (supposedId : Option PublicId)
    (addr : Addr) (greetResp : Option (Except (Option Addr) PublicId))
    (pingOk : Bool) : NodeState × Except (Option Addr) Unit :=
  if (match supposedId with
      | none => true
      | some sid => canAcceptPeer selfId st sid) then
    match greetResp with
    | some (.ok id) =>
      if (match supposedId with
          | none => true
          | some sid => sid = id) then
        ((acceptPeer selfId st id addr pingOk).state, .ok ())
      else (st, .error none)
    | some (.error alt) => (st, .error alt)
    | none => (st, .error none)
  else (st, .error none)

/-- `recv_greet`: accept and answer `Ok(self.id)`, or redirect to one existing
    peer chosen at random (the random draw is supplied as an index `k`). -/
def chooseAddr (st : NodeState) (k : Nat) : Option Addr :=
  (st.peers.get? (k % max 1 st.peers.length)).map (fun e => e.2.addr)

structure GreetOut where
  state : NodeState
  result : Except (Option Addr) PublicId

def recvGreet (selfId : PublicId) (st : NodeState) (sender : PublicId × Addr)
    (pingOk : Bool) (k : Nat) : GreetOut :=
  if canAcceptPeer selfId st sender.1 then
    let r := acceptPeer selfId st sender.1 sender.2 pingOk
    if r.accepted then { state := r.state, result := .ok selfId }
    else { state := r.state, result := .error (chooseAddr r.state k) }
  else { state := st, result := .error (chooseAddr st k) }

/-! ### `lib.rs`: content store and the upload / locate handlers -/

/-- `save_data`: write-once insert (`entry(tag).or_insert(data)`). -/
def saveData (st : NodeState) (tag : Tag) (data : List Nat) : NodeState :=
  match lookupTag st.data tag with
  | some _ => st
  | none => { st with data := (tag, data) :: st.data }

/-- The peers strictly closer to `tag` than self, in table order: the
    `filter` inside `recv_upload`, `recv_locate`. -/
def closerPeers (selfId : PublicId) (st : NodeState) (tag : Tag) : List Peer :=
  (st.peers.map Prod.snd).filter
    (fun p => tagLtB (Tag.distTo p.id.tag tag) (Tag.distTo selfId.tag tag))

/-- The observable outcome of `recv_upload`: the state after, the returned
    `Result<Tag, ()>`, and the address the upload was forwarded to, if any. -/
structure UploadOut where
  state : NodeState
  result : Except Unit Tag
  sentTo : Option Addr

/-- `recv_upload(data)`: hash the data; if some routed peer is strictly closer
    to the hash than self, forward the same upload to the closest such peer and
    propagate its response (`forwardResp`; `none` is a transport failure,
    surfaced as `Err(())`); otherwise store locally and answer `Ok(tag)`. -/
def recvUpload (selfId : PublicId) (st : NodeState) (data : List Nat)
    (forwardResp : Option (Except Unit Tag)) : UploadOut :=
  let tag := Tag.digest data
  match minByKeyTag (fun p => Tag.distTo p.id.tag tag) (closerPeers selfId st tag) with
  | some closer =>
    { state := st,
      result := match forwardResp with
        | some r => r
        | none => .error (),
      sentTo := some closer.addr }
  | none =>
    { state := saveData st tag data, result := .ok tag, sentTo := none }

/-- `LocateResp::result`: `Ok(Some(data))` carries the blob inline, `Ok(None)`
    is a dead end, `Err((id, addr))` redirects to a closer node. -/
abbrev LocateResult := Except (PublicId × Addr) (Option (List Nat))

/-- `recv_locate(tag)`: return the blob itself when stored locally; otherwise
    redirect to the closest strictly-closer routed peer; otherwise `Ok(None)`. -/
def recvLocate (selfId : PublicId) (st : NodeState) (tag : Tag) : LocateResult :=
  match lookupTag st.data tag with
  | some d => .ok (some d)
  | none =>
    match minByKeyTag (fun p => Tag.distTo p.id.tag tag) (closerPeers selfId st tag) with
    | some p => .error (p.id, p.addr)
    | none => .ok none

/-! ### `lib.rs`: `fetch_data` and the discover tick of `run` -/

/-- Outcome of `fetch_data`: `Ok(Some)/Ok(None)`, `Err(())`, or the model
    artifact of a response trace too short for the loop. -/
inductive FetchOut where
  | found (d : Option (List Nat))
  | failed
  | outOfResponses
deriving DecidableEq

/-- The iterative loop of `fetch_data`, driven by the trace of `locate`
    responses (`none` is a transport failure). Returns the outcome and the
    number of hops taken (accepted `Err(next)` advances). -/
def fetchLoop (tag : Tag) : (PublicId × Addr) → List (Option LocateResult) →
    FetchOut × Nat
  | _, [] => (.outOfResponses, 0)
  | closest, resp :: rest =>
    match resp with
    | none => (.failed, 0)
    | some (.ok d) => (.found d, 0)
    | some (.error next) =>
      if tagLtB (Tag.distTo next.1.tag tag) (Tag.distTo closest.1.tag tag) then
        let r := fetchLoop tag next rest
        (r.1, r.2 + 1)
      else (.found none, 0)

/-- `fetch_data(tag)`: local hit, else start from the routed peer of minimal
    XOR distance to `tag` and iterate `locate` (the node's own id is only used
    in log output). -/
def fetchData (_selfId : PublicId) (st : NodeState) (tag : Tag)
    (resps : List (Option LocateResult)) : FetchOut × Nat :=
  match lookupTag st.data tag with
  | some d => (.found (some d), 0)
  | none =>
    match minByKeyTag (fun p => Tag.distTo p.id.tag tag) (st.peers.map Prod.snd) with
    | some c => fetchLoop tag (c.id, c.addr) resps
    | none => (.found none, 0)

/-- A discover response in the tick loop: transport failure, `Ok(None)`, or
    `Ok(Some((id, addr)))`. -/
inductive TickResp where
  | failed
  | noPeer
  | peer (id : PublicId) (addr : Addr)

/-- One iteration's transport inputs in the discover tick: the discover
    response, and the greet response and ping outcome consumed by the inner
    `discover_peer` call if one happens. -/
structure TickStep where
  disc : TickResp
  greet : Option (Except (Option Addr) PublicId)
  ping : Bool

/-- The discover arm of `Node::run`: `for current_level in (0..256).rev()`,
    querying the current hop; a transport failure only logs and continues; a
    returned peer is handed to `discover_peer` and then *unconditionally*
    becomes the current hop; `Ok(None)` breaks. Returns the final state, the
    final current hop, and the `(addr, level)` pairs queried. -/
def discoverTickLoop (selfId : PublicId) : NodeState → (PublicId × Addr) →
    List Nat → List TickStep → NodeState × (PublicId × Addr) × List (Addr × Nat)
  | st, current, [], _ => (st, current, [])
  | st, current, level :: levels, steps =>
    let step := steps.headD { disc := .failed, greet := none, ping := false }
    match step.disc with
    | .failed =>
      let r := discoverTickLoop selfId st current levels steps.tail
      (r.1, r.2.1, (current.2, level) :: r.2.2)
    | .noPeer => (st, current, [(current.2, level)])
    | .peer id addr =>
      let st1 := (discoverPeer selfId st (some id) addr step.greet step.ping).1
      let r := discoverTickLoop selfId st1 (id, addr) levels steps.tail
      (r.1, r.2.1, (current.2, level) :: r.2.2)

/-- One full discover tick: levels 255 down to 0. -/
def discoverTick (selfId : PublicId) (st : NodeState) (current : PublicId × Addr)
    (steps : List TickStep) : NodeState × (PublicId × Addr) × List (Addr × Nat) :=
  discoverTickLoop selfId st current (List.range 256).reverse steps

/-- Big-endian 32-byte encoding of a natural number below `2 ^ 256`
    (convenience for building concrete tags). -/
def natToTag (n : Nat) : Tag :=
  (List.range 32).map (fun i => n / 256 ^ (31 - i) % 256)

/-! ### Concrete nodes, states and traces used by witnesses and counterexamples -/

def c1Self : PublicId := { tag := natToTag 1, key := { n := 1, e := 1 } }

def c1Tag : Tag := natToTag 0

def c1State : NodeState := { initState with data := [(c1Tag, [1, 2, 3])] }

def c2Self : PublicId := { tag := natToTag 0, key := { n := 1, e := 1 } }

def c2Peer : Peer :=
  { id := { tag := Tag.digest [], key := { n := 2, e := 1 } }, addr := 7 }

def c2State : NodeState := { initState with peers := [(0, c2Peer)] }

def c3Self : PublicId := { tag := natToTag 1, key := { n := 1, e := 1 } }

def c3Peer : Peer :=
  { id := { tag := natToTag 2, key := { n := 2, e := 1 } }, addr := 9 }

def c3State : NodeState := { initState with peers := [(0, c3Peer)] }

def c5Id (k : Nat) : PublicId := { tag := natToTag k, key := { n := k, e := 1 } }

def c5St1 : NodeState :=
  (discoverPeer (c5Id 0) initState none 1 (some (.ok (c5Id 4))) true).1

def c5St2 : NodeState :=
  (discoverPeer (c5Id 0) c5St1 none 2 (some (.ok (c5Id 5))) true).1

def c5St3 : NodeState :=
  (discoverPeer (c5Id 0) c5St2 none 3 (some (.ok (c5Id 6))) true).1

def c6Hop (k : Nat) : PublicId × Addr :=
  ({ tag := natToTag k, key := { n := k, e := 1 } }, k)

def c6Start : Peer :=
  { id := { tag := natToTag 258, key := { n := 258, e := 1 } }, addr := 258 }

def c6State : NodeState := { initState with peers := [(0, c6Start)] }

def c6Resps : List (Option LocateResult) :=
  (List.range 257).reverse.map (fun k => some (.error (c6Hop (k + 1))))

def c7Self : PublicId := { tag := natToTag 0, key := { n := 1, e := 1 } }

def c7P0 : PublicId × Addr :=
  ({ tag := natToTag 3, key := { n := 3, e := 1 } }, 30)

def c7P1 : PublicId × Addr :=
  ({ tag := natToTag 2, key := { n := 2, e := 1 } }, 20)

/-- A peer at level 255 from `c7Self` (leading byte 1): any `discover` answer
    naming it at `max_level ≤ 254` violates the level precondition. -/
def c7V : PublicId × Addr :=
  ({ tag := 1 :: List.replicate 31 0, key := { n := 9, e := 1 } }, 90)

def c7Steps : List TickStep :=
  [{ disc := .peer c7P1.1 c7P1.2, greet := none, ping := false },
    { disc := .peer c7V.1 c7V.2, greet := none, ping := false },
    { disc := .noPeer, greet := none, ping := false }]

def c7State : NodeState :=
  { initState with peers := [(0, { id := c7P1.1, addr := 20 })] }

def c8Self : PublicId := { tag := natToTag 0, key := { n := 1, e := 1 } }

def c8Id : PublicId := { tag := natToTag 4, key := { n := 2, e := 1 } }

def c8St1 : NodeState := (acceptPeer c8Self initState c8Id 5 true).state

theorem ilog2Fuel_le (f : Nat) : ∀ n, ilog2Fuel f n ≤ f := by
  induction f with
  | zero => intro n; simp [ilog2Fuel]
  | succ f ih =>
    intro n
    simp only [ilog2Fuel]
    split
    · exact Nat.succ_le_succ (ih _)
    · exact Nat.zero_le _

theorem ilog2Fuel_byte_le : ∀ b, b < 256 → ilog2Fuel 8 b ≤ 7 := by decide

theorem levelFind_bounds :
    ∀ (l : List Nat) (s i b : Nat), levelFind s l = some (i, b) →
      s ≤ i ∧ i < s + l.length ∧ b ∈ l := by
  intro l
  induction l with
  | nil => intro s i b h; simp [levelFind] at h
  | cons c rest ih =>
    intro s i b h
    simp only [levelFind] at h
    split at h
    · cases h
      exact ⟨Nat.le_refl _, by simp, List.mem_cons_self _ _⟩
    · obtain ⟨h1, h2, h3⟩ := ih (s + 1) i b h
      refine ⟨Nat.le_of_succ_le h1, ?_, List.mem_cons_of_mem _ h3⟩
      simpa [Nat.succ_add, Nat.add_comm, Nat.add_assoc, Nat.add_left_comm] using h2

/-- C10: for every well-formed 32-byte tag, `level` is at most 255 (so indexing
    the 256-entry `peers_by_level` array with it is in bounds), and the
    subtracted quantity `i * 8 + b.ilog2()` never exceeds 255, so the `u16`
    subtraction `255 - i * 8 - b.ilog2()` never underflows. -/
theorem level_in_bounds (t : Tag) (h : tagWF t) :
    Tag.level t ≤ 255 ∧
      ∀ i b, levelFind 0 t = some (i, b) → i * 8 + ilog2Fuel 8 b ≤ 255 := by
  obtain ⟨hlen, hbyte⟩ := h
  constructor
  · unfold Tag.level
    split
    · exact Nat.le_trans (Nat.sub_le _ _) (Nat.sub_le _ _)
    · exact Nat.zero_le _
  · intro i b hfind
    obtain ⟨-, hi, hmem⟩ := levelFind_bounds t 0 i b hfind
    rw [Nat.zero_add, hlen] at hi
    have hb : b < 256 := hbyte b hmem
    have h8 : ilog2Fuel 8 b ≤ 7 := ilog2Fuel_byte_le b hb
    have hi' : i ≤ 31 := Nat.lt_succ_iff.mp hi
    calc i * 8 + ilog2Fuel 8 b ≤ 31 * 8 + 7 :=
          Nat.add_le_add (Nat.mul_le_mul_right 8 hi') h8
      _ ≤ 255 := by decide

/-- C10 witness: the bound instantiated at a concrete tag. -/
theorem level_in_bounds_witness :
    tagWF topBitTag ∧
      (Tag.level topBitTag ≤ 255 ∧
        ∀ i b, levelFind 0 topBitTag = some (i, b) →
          i * 8 + ilog2Fuel 8 b ≤ 255) :=
  ⟨by decide, level_in_bounds topBitTag (by decide)⟩

theorem levelFind_of_first_nonzero :
    ∀ (l : List Nat) (s i b : Nat), i < l.length →
      (∀ k, k < i → l.getD k 0 = 0) → l.getD i 0 = b → b ≠ 0 →
      levelFind s l = some (s + i, b) := by
  intro l
  induction l with
  | nil => intro s i b hi; simp at hi
  | cons c rest ih =>
    intro s i b hi hzero hib hb
    cases i with
    | zero =>
      simp only [List.getD_cons_zero] at hib
      subst hib
      simp [levelFind, hb]
    | succ j =>
      have hc : c = 0 := by simpa using hzero 0 (Nat.succ_pos j)
      subst hc
      simp only [levelFind, ne_eq, not_true_eq_false, if_neg, not_false_eq_true,
        reduceIte]
      have hrec := ih (s + 1) j b (by simpa using hi)
        (fun k hk => by simpa using hzero (k + 1) (Nat.succ_lt_succ hk))
        (by simpa using hib) hb
      rw [hrec, show s + 1 + j = s + (j + 1) by omega]

/-- C4 (amended): `Tag::level` returns `255 - 8·i - ilog2(b)` where `i` is the
    index of the most significant nonzero byte and `b` that byte (and `0` for
    the all-zero tag) — the bit index *within the leading byte* enters with the
    opposite sign to the claim's `255 − global_msb_index` formula. -/
theorem level_of_first_nonzero_byte (t : Tag) (i b : Nat)
    (hi : i < t.length) (hzero : ∀ k, k < i → t.getD k 0 = 0)
    (hib : t.getD i 0 = b) (hb : b ≠ 0) :
    Tag.level t = 255 - i * 8 - ilog2Fuel 8 b := by
  unfold Tag.level
  rw [show levelFind 0 t = some (0 + i, b) from
    levelFind_of_first_nonzero t 0 i b hi hzero hib hb]
  simp

/-- C4 witness: the amended formula instantiated at a concrete tag whose
    second byte is the most significant nonzero one. -/
theorem level_of_first_nonzero_byte_witness :
    (1 < (0 :: 4 :: List.replicate 30 0 : Tag).length ∧
        (∀ k, k < 1 → (0 :: 4 :: List.replicate 30 0 : Tag).getD k 0 = 0) ∧
        (0 :: 4 :: List.replicate 30 0 : Tag).getD 1 0 = 4 ∧ (4 : Nat) ≠ 0) ∧
      Tag.level (0 :: 4 :: List.replicate 30 0) = 255 - 1 * 8 - ilog2Fuel 8 4 :=
  ⟨⟨by decide, by decide, by decide, by decide⟩,
    level_of_first_nonzero_byte (0 :: 4 :: List.replicate 30 0) 1 4
      (by decide) (by decide) (by decide) (by decide)⟩

/-- C4 counterexample: on the tag whose only set bit is the most significant
    one, the code computes level 248, while the claim's
    `255 − bit_index_of_most_significant_one` formula (bit index 255 for the
    top bit of a 256-bit big-endian integer) yields 0. -/
theorem level_claim_counterexample :
    Tag.level topBitTag = 248 ∧ claimedLevel topBitTag = 0 ∧ (248 : Nat) ≠ 0 := by
  refine ⟨by decide, ?_, by decide⟩
  have h : tagToNat topBitTag = 2 ^ 255 := by decide
  rw [claimedLevel, h]
  norm_num
  decide

/-! ### The lexicographic byte order and `min_by_key` -/

theorem tagLtB_cons_iff (x y : Nat) (xs ys : List Nat) :
    tagLtB (x :: xs) (y :: ys) = true ↔ x < y ∨ (x = y ∧ tagLtB xs ys = true) := by
  simp only [tagLtB]
  by_cases h1 : x < y
  · simp [h1]
  · by_cases h2 : y < x
    · simp only [if_neg h1, if_pos h2]
      constructor
      · intro h; cases h
      · rintro (h | ⟨h, -⟩) <;> omega
    · have hxy : x = y := by omega
      simp [h1, h2, hxy]

theorem tagLtB_cons_false_iff (x y : Nat) (xs ys : List Nat) :
    tagLtB (x :: xs) (y :: ys) = false ↔
      ¬ x < y ∧ (x = y → tagLtB xs ys = false) := by
  rw [← Bool.not_eq_true, tagLtB_cons_iff]
  simp [not_or, Bool.not_eq_true, imp_iff_not_or]

theorem tagLtB_irrefl : ∀ a : List Nat, tagLtB a a = false := by
  intro a
  induction a with
  | nil => rfl
  | cons x xs ih => simp [tagLtB, Nat.lt_irrefl, ih]

theorem tagLtB_trans : ∀ a b c : List Nat,
    tagLtB a b = true → tagLtB b c = true → tagLtB a c = true := by
  intro a
  induction a with
  | nil =>
    intro b c hab hbc
    cases b with
    | nil => simp [tagLtB] at hab
    | cons y ys =>
      cases c with
      | nil => simp [tagLtB] at hbc
      | cons z zs => simp [tagLtB]
  | cons x xs ih =>
    intro b c hab hbc
    cases b with
    | nil => simp [tagLtB] at hab
    | cons y ys =>
      cases c with
      | nil => simp [tagLtB] at hbc
      | cons z zs =>
        rw [tagLtB_cons_iff] at hab hbc ⊢
        rcases hab with h | ⟨he, hr⟩
        · rcases hbc with h2 | ⟨he2, hr2⟩
          · exact Or.inl (by omega)
          · exact Or.inl (by omega)
        · rcases hbc with h2 | ⟨he2, hr2⟩
          · exact Or.inl (by omega)
          · exact Or.inr ⟨by omega, ih ys zs hr hr2⟩

theorem tagLtB_neg_trans : ∀ a b c : List Nat,
    tagLtB a b = false → tagLtB b c = false → tagLtB a c = false := by
  intro a
  induction a with
  | nil =>
    intro b c hab hbc
    cases b with
    | nil =>
      cases c with
      | nil => rfl
      | cons z zs => simp [tagLtB] at hbc
    | cons y ys => simp [tagLtB] at hab
  | cons x xs ih =>
    intro b c hab hbc
    cases c with
    | nil => cases b <;> simp [tagLtB]
    | cons z zs =>
      cases b with
      | nil => simp [tagLtB] at hbc
      | cons y ys =>
        rw [tagLtB_cons_false_iff] at hab hbc ⊢
        obtain ⟨h1, h2⟩ := hab
        obtain ⟨h3, h4⟩ := hbc
        refine ⟨by omega, fun hxz => ?_⟩
        have hxy : x = y := by omega
        exact ih ys zs (h2 hxy) (h4 (by omega))

theorem minFold_mem (key : α → Tag) :
    ∀ (xs : List α) (acc : α),
      xs.foldl (fun a y => if tagLtB (key y) (key a) then y else a) acc = acc ∨
        xs.foldl (fun a y => if tagLtB (key y) (key a) then y else a) acc ∈ xs := by
  intro xs
  induction xs with
  | nil => intro acc; simp
  | cons z rest ih =>
    intro acc
    simp only [List.foldl_cons]
    by_cases h : tagLtB (key z) (key acc) = true
    · rw [if_pos h]
      rcases ih z with h1 | h1
      · right; rw [h1]; exact List.mem_cons_self _ _
      · right; exact List.mem_cons_of_mem _ h1
    · rw [if_neg h]
      rcases ih acc with h1 | h1
      · left; exact h1
      · right; exact List.mem_cons_of_mem _ h1

theorem minFold_min (key : α → Tag) :
    ∀ (xs : List α) (acc y : α), (y = acc ∨ y ∈ xs) →
      tagLtB (key y)
        (key (xs.foldl (fun a z => if tagLtB (key z) (key a) then z else a) acc)) =
        false := by
  intro xs
  induction xs with
  | nil =>
    rintro acc y (rfl | hy)
    · simpa using tagLtB_irrefl (key y)
    · simp at hy
  | cons z rest ih =>
    rintro acc y hy
    simp only [List.foldl_cons]
    by_cases h : tagLtB (key z) (key acc) = true
    · rw [if_pos h]
      rcases hy with heq | hy
      · rw [heq]
        by_contra hacc
        rw [Bool.not_eq_false] at hacc
        have hzr := tagLtB_trans (key z) (key acc) _ h hacc
        rw [ih z z (Or.inl rfl)] at hzr
        cases hzr
      · rcases List.mem_cons.mp hy with heq | hy
        · rw [heq]; exact ih z z (Or.inl rfl)
        · exact ih z y (Or.inr hy)
    · rw [if_neg h]
      rw [Bool.not_eq_true] at h
      rcases hy with heq | hy
      · rw [heq]; exact ih acc acc (Or.inl rfl)
      · rcases List.mem_cons.mp hy with heq | hy
        · rw [heq]; exact tagLtB_neg_trans _ _ _ h (ih acc acc (Or.inl rfl))
        · exact ih acc y (Or.inr hy)

theorem minByKeyTag_mem (key : α → Tag) (l : List α) (x : α)
    (h : minByKeyTag key l = some x) : x ∈ l := by
  cases l with
  | nil => simp [minByKeyTag] at h
  | cons a as =>
    simp only [minByKeyTag, Option.some.injEq] at h
    rcases minFold_mem key as a with h1 | h1
    · rw [← h, h1]; exact List.mem_cons_self _ _
    · rw [← h]; exact List.mem_cons_of_mem _ h1

theorem minByKeyTag_min (key : α → Tag) (l : List α) (x : α)
    (h : minByKeyTag key l = some x) :
    ∀ y ∈ l, tagLtB (key y) (key x) = false := by
  cases l with
  | nil => simp [minByKeyTag] at h
  | cons a as =>
    simp only [minByKeyTag, Option.some.injEq] at h
    intro y hy
    rw [← h]
    rcases List.mem_cons.mp hy with heq | hy
    · rw [heq]; exact minFold_min key as a a (Or.inl rfl)
    · exact minFold_min key as a y (Or.inr hy)

theorem minByKeyTag_none_iff (key : α → Tag) (l : List α) :
    minByKeyTag key l = none ↔ l = [] := by
  cases l <;> simp [minByKeyTag]

/-! ### Well-formedness and numeric value of distances -/

theorem zipWith_xor_bytes : ∀ (a b : List Nat),
    (∀ x ∈ a, x < 256) → (∀ x ∈ b, x < 256) →
    ∀ v ∈ List.zipWith (fun x y => Nat.xor x y) a b, v < 256 := by
  intro a
  induction a with
  | nil => intro b _ _ v hv; simp at hv
  | cons x xs ih =>
    intro b ha hb v hv
    cases b with
    | nil => simp at hv
    | cons y ys =>
      simp only [List.zipWith_cons_cons, List.mem_cons] at hv
      rcases hv with rfl | hv
      · have hx : x < 2 ^ 8 := ha x (List.mem_cons_self _ _)
        have hy : y < 2 ^ 8 := hb y (List.mem_cons_self _ _)
        exact Nat.xor_lt_two_pow hx hy
      · exact ih ys (fun v hv => ha v (List.mem_cons_of_mem _ hv))
          (fun v hv => hb v (List.mem_cons_of_mem _ hv)) v hv

theorem tagWF_distTo (a b : Tag) (ha : tagWF a) (hb : tagWF b) :
    tagWF (Tag.distTo a b) := by
  obtain ⟨hal, hab⟩ := ha
  obtain ⟨hbl, hbb⟩ := hb
  exact ⟨by simp [Tag.distTo, hal, hbl], zipWith_xor_bytes a b hab hbb⟩

theorem foldl_byte_lb : ∀ (l : List Nat) (acc : Nat),
    acc * 256 ^ l.length ≤ l.foldl (fun a b => a * 256 + b) acc := by
  intro l
  induction l with
  | nil => intro acc; simp
  | cons b rest ih =>
    intro acc
    simp only [List.foldl_cons, List.length_cons]
    calc acc * 256 ^ (rest.length + 1) = acc * 256 * 256 ^ rest.length := by ring
      _ ≤ (acc * 256 + b) * 256 ^ rest.length :=
          Nat.mul_le_mul_right _ (Nat.le_add_right _ _)
      _ ≤ _ := ih (acc * 256 + b)

theorem foldl_byte_ub : ∀ (l : List Nat), (∀ x ∈ l, x < 256) → ∀ acc : Nat,
    l.foldl (fun a b => a * 256 + b) acc < (acc + 1) * 256 ^ l.length := by
  intro l
  induction l with
  | nil => intro _ acc; simp
  | cons b rest ih =>
    intro hb acc
    simp only [List.foldl_cons, List.length_cons]
    have hb0 : b < 256 := hb b (List.mem_cons_self _ _)
    calc rest.foldl (fun a b => a * 256 + b) (acc * 256 + b) <
          (acc * 256 + b + 1) * 256 ^ rest.length :=
            ih (fun x hx => hb x (List.mem_cons_of_mem _ hx)) _
      _ ≤ (acc + 1) * 256 ^ (rest.length + 1) := by
          have h1 : acc * 256 + b + 1 ≤ (acc + 1) * 256 := by omega
          calc (acc * 256 + b + 1) * 256 ^ rest.length ≤
                (acc + 1) * 256 * 256 ^ rest.length := Nat.mul_le_mul_right _ h1
            _ = (acc + 1) * 256 ^ (rest.length + 1) := by ring

theorem tagLtB_foldl_lt : ∀ (a b : List Nat), a.length = b.length →
    (∀ x ∈ a, x < 256) → tagLtB a b = true → ∀ acc : Nat,
    a.foldl (fun s x => s * 256 + x) acc < b.foldl (fun s x => s * 256 + x) acc := by
  intro a
  induction a with
  | nil =>
    intro b hlen _ hab
    cases b with
    | nil => simp [tagLtB] at hab
    | cons y ys => simp at hlen
  | cons x xs ih =>
    intro b hlen hbd hab
    cases b with
    | nil => simp at hlen
    | cons y ys =>
      intro acc
      simp only [List.length_cons, Nat.succ.injEq] at hlen
      rcases (tagLtB_cons_iff x y xs ys).mp hab with hlt | ⟨heq, hrec⟩
      · simp only [List.foldl_cons]
        calc xs.foldl (fun s x => s * 256 + x) (acc * 256 + x) <
              (acc * 256 + x + 1) * 256 ^ xs.length :=
                foldl_byte_ub xs (fun v hv => hbd v (List.mem_cons_of_mem _ hv)) _
          _ ≤ (acc * 256 + y) * 256 ^ xs.length :=
              Nat.mul_le_mul_right _ (by omega)
          _ = (acc * 256 + y) * 256 ^ ys.length := by rw [hlen]
          _ ≤ ys.foldl (fun s x => s * 256 + x) (acc * 256 + y) :=
              foldl_byte_lb ys _
      · subst heq
        simp only [List.foldl_cons]
        exact ih ys hlen (fun v hv => hbd v (List.mem_cons_of_mem _ hv)) hrec _

/-- Strictly smaller in the byte order means strictly smaller as a 256-bit
    big-endian integer (for well-formed equal-length byte strings). -/
theorem tagLtB_tagToNat (a b : List Nat) (hlen : a.length = b.length)
    (ha : ∀ x ∈ a, x < 256) (hab : tagLtB a b = true) :
    tagToNat a < tagToNat b :=
  tagLtB_foldl_lt a b hlen ha hab 0

theorem tagToNat_lt_two_pow (t : Tag) (h : tagWF t) : tagToNat t < 2 ^ 256 := by
  obtain ⟨hlen, hb⟩ := h
  have := foldl_byte_ub t hb 0
  rw [hlen] at this
  calc tagToNat t < (0 + 1) * 256 ^ 32 := this
    _ = 2 ^ 256 := by norm_num

/-! ### C1: the inbound locate handler -/

/-- C1 (amended): `recv_locate` answers `Ok(Some(data))` with the stored bytes
    inline when the tag is present; otherwise `Err((id, addr))` naming a routed
    peer strictly closer to the tag than self and of minimal XOR distance among
    all such peers (`min_by_key` keeps the first of equally minimal); otherwise
    `Ok(None)`. -/
theorem recvLocate_contract (selfId : PublicId) (st : NodeState) (tag : Tag) :
    (∀ d, lookupTag st.data tag = some d →
      recvLocate selfId st tag = .ok (some d)) ∧
    (lookupTag st.data tag = none → closerPeers selfId st tag = [] →
      recvLocate selfId st tag = .ok none) ∧
    (∀ id addr, recvLocate selfId st tag = .error (id, addr) →
      lookupTag st.data tag = none ∧
      ∃ p : Peer, p ∈ st.peers.map Prod.snd ∧ p.id = id ∧ p.addr = addr ∧
        tagLtB (Tag.distTo p.id.tag tag) (Tag.distTo selfId.tag tag) = true ∧
        ∀ q : Peer, q ∈ st.peers.map Prod.snd →
          tagLtB (Tag.distTo q.id.tag tag) (Tag.distTo selfId.tag tag) = true →
          tagLtB (Tag.distTo q.id.tag tag) (Tag.distTo p.id.tag tag) = false) := by
  refine ⟨?_, ?_, ?_⟩
  · intro d hd
    simp [recvLocate, hd]
  · intro hmiss hclose
    simp [recvLocate, hmiss, hclose, minByKeyTag]
  · intro id addr hres
    unfold recvLocate at hres
    cases hlook : lookupTag st.data tag with
    | some d => rw [hlook] at hres; cases hres
    | none =>
      rw [hlook] at hres
      refine ⟨rfl, ?_⟩
      cases hmin : minByKeyTag (fun p => Tag.distTo p.id.tag tag)
          (closerPeers selfId st tag) with
      | none => rw [hmin] at hres; cases hres
      | some p =>
        rw [hmin] at hres
        have hpair : p.id = id ∧ p.addr = addr := by
          cases hres; exact ⟨rfl, rfl⟩
        have hp := minByKeyTag_mem _ _ _ hmin
        have hmm := minByKeyTag_min _ _ _ hmin
        rw [closerPeers, List.mem_filter] at hp
        refine ⟨p, hp.1, hpair.1, hpair.2, hp.2, ?_⟩
        intro q hq hqlt
        exact hmm q (by rw [closerPeers, List.mem_filter]; exact ⟨hq, hqlt⟩)

/-- C1 witness: a concrete store hit, answered with the bytes inline. -/
theorem recvLocate_contract_witness :
    lookupTag c1State.data c1Tag = some [1, 2, 3] ∧
      recvLocate c1Self c1State c1Tag = .ok (some [1, 2, 3]) :=
  ⟨by decide, (recvLocate_contract c1Self c1State c1Tag).1 [1, 2, 3] (by decide)⟩

/-- C1 counterexample: the response to a locate for a stored tag carries the
    stored data bytes themselves, not a boolean — refuting "the locate
    response never carries the data bytes" as well as the `Ok(true)` shape. -/
theorem recvLocate_counterexample :
    recvLocate c1Self c1State c1Tag = .ok (some [1, 2, 3]) ∧
      ([1, 2, 3] : List Nat) ≠ [] :=
  ⟨rfl, by decide⟩

/-! ### C2: the inbound upload handler -/

/-- C2 (amended): `recv_upload` digests the data; when no routed peer is
    strictly closer to the digest it stores `(tag, data)` write-once and
    answers `Ok(tag)`; when one is, it forwards the same upload to the
    strictly-closer peer of minimal XOR distance (first of equally minimal)
    and stores nothing locally. -/
theorem recvUpload_contract (selfId : PublicId) (st : NodeState) (data : List Nat)
    (forwardResp : Option (Except Unit Tag)) :
    (closerPeers selfId st (Tag.digest data) = [] →
      recvUpload selfId st data forwardResp =
        { state := saveData st (Tag.digest data) data,
          result := .ok (Tag.digest data), sentTo := none }) ∧
    (∀ a, (recvUpload selfId st data forwardResp).sentTo = some a →
      (recvUpload selfId st data forwardResp).state = st ∧
      ∃ p : Peer, p ∈ st.peers.map Prod.snd ∧ p.addr = a ∧
        tagLtB (Tag.distTo p.id.tag (Tag.digest data))
          (Tag.distTo selfId.tag (Tag.digest data)) = true ∧
        ∀ q : Peer, q ∈ st.peers.map Prod.snd →
          tagLtB (Tag.distTo q.id.tag (Tag.digest data))
            (Tag.distTo selfId.tag (Tag.digest data)) = true →
          tagLtB (Tag.distTo q.id.tag (Tag.digest data))
            (Tag.distTo p.id.tag (Tag.digest data)) = false) := by
  constructor
  · intro hclose
    simp [recvUpload, hclose, minByKeyTag]
  · intro a hsent
    simp only [recvUpload] at hsent ⊢
    cases hmin : minByKeyTag (fun p => Tag.distTo p.id.tag (Tag.digest data))
        (closerPeers selfId st (Tag.digest data)) with
    | none => rw [hmin] at hsent; simp at hsent
    | some p =>
      rw [hmin] at hsent
      simp only [Option.some.injEq] at hsent
      have hp := minByKeyTag_mem _ _ _ hmin
      have hmm := minByKeyTag_min _ _ _ hmin
      rw [closerPeers, List.mem_filter] at hp
      refine ⟨rfl, p, hp.1, hsent, hp.2, ?_⟩
      intro q hq hqlt
      exact hmm q (by rw [closerPeers, List.mem_filter]; exact ⟨hq, hqlt⟩)

/-- C2 witness: with no strictly closer peer, the upload is stored locally
    and `Ok(tag)` is returned. -/
theorem recvUpload_contract_witness :
    closerPeers c2Self initState (Tag.digest []) = [] ∧
      recvUpload c2Self initState [] none =
        { state := saveData initState (Tag.digest []) [],
          result := .ok (Tag.digest []), sentTo := none } :=
  ⟨by decide, (recvUpload_contract c2Self initState [] none).1 (by decide)⟩

/-- C2 counterexample: with a strictly closer routed peer (whose tag equals
    the digest of the data), the handler forwards the uploaded bytes to that
    peer and stores nothing locally — refuting "stores locally and does not
    forward". -/
theorem recvUpload_counterexample :
    (recvUpload c2Self c2State [] (some (.ok (Tag.digest [])))).sentTo = some 7 ∧
      (recvUpload c2Self c2State [] (some (.ok (Tag.digest [])))).state.data = [] := by
  decide

/-! ### C8: accept_peer on an already-present peer -/

/-- C8 (amended): a call to `accept_peer` with an id already present in
    `peers_by_id` short-circuits before the liveness probe: no ping is sent,
    the state is unchanged, and the call returns `false` (and `Peer` has no
    ping field that could be updated). -/
theorem acceptPeer_present_noop (selfId : PublicId) (st : NodeState)
    (id : PublicId) (addr : Addr) (pingOk : Bool)
    (h : lookupId st.peersById id ≠ none) :
    acceptPeer selfId st id addr pingOk =
      { accepted := false, pingSent := false, state := st } := by
  have hc : ¬ (id ≠ selfId ∧ lookupId st.peersById id = none) := fun hc => h hc.2
  simp [acceptPeer, hc]

/-- C8 witness: after accepting a fresh peer, re-accepting the same id is a
    no-op returning false. -/
theorem acceptPeer_present_noop_witness :
    lookupId c8St1.peersById c8Id ≠ none ∧
      acceptPeer c8Self c8St1 c8Id 5 true =
        { accepted := false, pingSent := false, state := c8St1 } :=
  ⟨by decide, acceptPeer_present_noop c8Self c8St1 c8Id 5 true (by decide)⟩

/-- C8 counterexample: the claim says such a call returns `true`; it returns
    `false` (even with a succeeding probe available). -/
theorem acceptPeer_present_counterexample :
    (acceptPeer c8Self c8St1 c8Id 5 true).accepted = false ∧ false ≠ true := by
  decide

/-! ### C9: PublicId fingerprint invariant and serialization round-trip -/

/-- C9 (confirmed): `PublicId::from(key)` computes the tag as the key's
    fingerprint, and serializing a PublicId (the key alone) then deserializing
    (which recomputes the fingerprint rather than trusting a transmitted tag)
    restores any PublicId satisfying the tag invariant. -/
theorem publicId_fingerprint_roundtrip (key : RsaPublicKey) (p : PublicId)
    (hp : p.tag = Tag.fingerprint p.key) :
    (PublicId.ofKey key).tag = Tag.fingerprint key ∧
      PublicId.ofKey (PublicId.serialize p) = p := by
  refine ⟨rfl, ?_⟩
  cases p with
  | mk t k =>
    simp only at hp
    simp [PublicId.ofKey, PublicId.serialize, hp]

/-- C9 witness: the round-trip at a concrete key. -/
theorem publicId_fingerprint_roundtrip_witness :
    (PublicId.ofKey { n := 5, e := 3 }).tag =
        Tag.fingerprint { n := 5, e := 3 } ∧
      PublicId.ofKey (PublicId.serialize (PublicId.ofKey { n := 5, e := 3 })) =
        PublicId.ofKey { n := 5, e := 3 } :=
  publicId_fingerprint_roundtrip { n := 5, e := 3 }
    (PublicId.ofKey { n := 5, e := 3 }) rfl

/-! ### C5: per-bucket capacity -/

theorem acceptPeer_bucket_other (selfId : PublicId) (st : NodeState)
    (id : PublicId) (addr : Addr) (pingOk : Bool) (L : Nat)
    (hL : L ≠ Tag.level (Tag.distTo selfId.tag id.tag)) :
    (acceptPeer selfId st id addr pingOk).state.peersByLevel L =
      st.peersByLevel L := by
  simp only [acceptPeer]
  split
  · split
    · simp [hL]
    · rfl
  · rfl

theorem acceptPeer_bucket_same (selfId : PublicId) (st : NodeState)
    (id : PublicId) (addr : Addr) (pingOk : Bool) :
    ((acceptPeer selfId st id addr pingOk).state.peersByLevel
        (Tag.level (Tag.distTo selfId.tag id.tag))).length ≤
      (st.peersByLevel (Tag.level (Tag.distTo selfId.tag id.tag))).length + 1 := by
  simp only [acceptPeer]
  split
  · split
    · simp
    · simp
  · simp

theorem bucketLen_after_accept (selfId : PublicId) (st : NodeState)
    (id : PublicId) (addr : Addr) (pingOk : Bool) (L : Nat)
    (hB : ∀ M, (st.peersByLevel M).length ≤ MAX_LEVEL_PEERS)
    (hlt : (st.peersByLevel (Tag.level (Tag.distTo selfId.tag id.tag))).length <
      MAX_LEVEL_PEERS) :
    (((acceptPeer selfId st id addr pingOk).state).peersByLevel L).length ≤
      MAX_LEVEL_PEERS := by
  by_cases hL : L = Tag.level (Tag.distTo selfId.tag id.tag)
  · subst hL
    have h1 := acceptPeer_bucket_same selfId st id addr pingOk
    omega
  · rw [acceptPeer_bucket_other selfId st id addr pingOk L hL]
    exact hB L

theorem canAcceptPeer_bucket_lt (selfId : PublicId) (st : NodeState)
    (id : PublicId) (hca : canAcceptPeer selfId st id = true) :
    (st.peersByLevel (Tag.level (Tag.distTo selfId.tag id.tag))).length <
      MAX_LEVEL_PEERS := by
  unfold canAcceptPeer at hca
  rw [decide_eq_true_eq] at hca
  exact hca.2.1

/-- C5 (amended): the bucket bound is an invariant of the *guarded* paths:
    `recv_greet`, `discover_peer` with a supposed id (both gated on
    `can_accept_peer`), and `remove_peer` all preserve
    `|peers_by_level[L]| ≤ MAX_LEVEL_PEERS` — but `accept_peer` itself checks
    no capacity, so the bootstrap path `discover_peer(None, addr)` does not
    (see the counterexample). -/
theorem bucket_bound_guarded (selfId : PublicId) (st : NodeState)
    (hB : ∀ L, (st.peersByLevel L).length ≤ MAX_LEVEL_PEERS) :
    (∀ sender pingOk k L,
      (((recvGreet selfId st sender pingOk k).state).peersByLevel L).length ≤
        MAX_LEVEL_PEERS) ∧
    (∀ sid addr greetResp pingOk L,
      (((discoverPeer selfId st (some sid) addr greetResp pingOk).1).peersByLevel
          L).length ≤ MAX_LEVEL_PEERS) ∧
    (∀ idx L, ((removePeer selfId st idx).peersByLevel L).length ≤
      MAX_LEVEL_PEERS) := by
  refine ⟨?_, ?_, ?_⟩
  · intro sender pingOk k L
    simp only [recvGreet]
    split
    case isTrue hca =>
      have hlt := canAcceptPeer_bucket_lt selfId st sender.1 hca
      split
      · exact bucketLen_after_accept selfId st sender.1 sender.2 pingOk L hB hlt
      · exact bucketLen_after_accept selfId st sender.1 sender.2 pingOk L hB hlt
    case isFalse _ => exact hB L
  · intro sid addr greetResp pingOk L
    simp only [discoverPeer]
    split
    case isTrue hca =>
      cases greetResp with
      | none => exact hB L
      | some r =>
        cases r with
        | error alt => exact hB L
        | ok id =>
          dsimp only
          split
          case isTrue heq =>
            have heq2 : sid = id := of_decide_eq_true heq
            subst heq2
            have hlt := canAcceptPeer_bucket_lt selfId st sid hca
            exact bucketLen_after_accept selfId st sid addr pingOk L hB hlt
          case isFalse _ => exact hB L
    case isFalse _ => exact hB L
  · intro idx L
    unfold removePeer
    cases h : lookupIdx st.peers idx with
    | none => exact hB L
    | some peer =>
      dsimp only
      by_cases hL : L = Tag.level (Tag.distTo selfId.tag peer.id.tag)
      · rw [if_pos hL]
        exact Nat.le_trans (List.length_filter_le _ _) (hB L)
      · rw [if_neg hL]
        exact hB L

/-- C5 witness: the guarded-path invariant instantiated at the empty table. -/
theorem bucket_bound_guarded_witness :
    (∀ L, (initState.peersByLevel L).length ≤ MAX_LEVEL_PEERS) ∧
      ((∀ sender pingOk k L,
        (((recvGreet (c5Id 0) initState sender pingOk k).state).peersByLevel
            L).length ≤ MAX_LEVEL_PEERS) ∧
      (∀ sid addr greetResp pingOk L,
        (((discoverPeer (c5Id 0) initState (some sid) addr greetResp
            pingOk).1).peersByLevel L).length ≤ MAX_LEVEL_PEERS) ∧
      (∀ idx L, ((removePeer (c5Id 0) initState idx).peersByLevel L).length ≤
        MAX_LEVEL_PEERS)) :=
  ⟨fun _ => Nat.zero_le _,
    bucket_bound_guarded (c5Id 0) initState (fun _ => Nat.zero_le _)⟩

/-- C5 counterexample: three bootstrap discoveries (`discover_peer(None, ·)`)
    of peers that all land in bucket 5 push that bucket to 3 entries, above
    `MAX_LEVEL_PEERS = 2` — `accept_peer` checks no capacity on this path. -/
theorem bucket_overflow_counterexample :
    (c5St3.peersByLevel 5).length = 3 ∧ ¬ (3 ≤ MAX_LEVEL_PEERS) := by decide

/-! ### C3: no integrity verification in fetch_data -/

theorem fetchLoop_wire_bytes (tag : Tag) :
    ∀ (resps : List (Option LocateResult)) (closest : PublicId × Addr)
      (d : List Nat), (fetchLoop tag closest resps).1 = .found (some d) →
      some (Except.ok (some d)) ∈ resps := by
  intro resps
  induction resps with
  | nil => intro closest d h; simp [fetchLoop] at h
  | cons r rest ih =>
    intro closest d h
    match r with
    | none => simp [fetchLoop] at h
    | some (.ok dd) =>
      simp only [fetchLoop] at h
      have hdd : dd = some d := by cases h; rfl
      rw [hdd]
      exact List.mem_cons_self _ _
    | some (.error next) =>
      simp only [fetchLoop] at h
      split at h
      · exact List.mem_cons_of_mem _ (ih next d h)
      · simp at h

/-- C3 (amended): `fetch_data` performs no digest verification: any bytes it
    returns come verbatim from the local content store or from a `locate`
    response on the wire, whatever they hash to. -/
theorem fetchData_wire_bytes (selfId : PublicId) (st : NodeState) (tag : Tag)
    (resps : List (Option LocateResult)) (d : List Nat)
    (h : (fetchData selfId st tag resps).1 = .found (some d)) :
    lookupTag st.data tag = some d ∨ some (Except.ok (some d)) ∈ resps := by
  unfold fetchData at h
  cases hl : lookupTag st.data tag with
  | some d0 =>
    rw [hl] at h
    left
    have hd : d0 = d := by cases h; rfl
    rw [hd]
  | none =>
    rw [hl] at h
    cases hm : minByKeyTag (fun p => Tag.distTo p.id.tag tag)
        (st.peers.map Prod.snd) with
    | some c =>
      rw [hm] at h
      exact Or.inr (fetchLoop_wire_bytes tag resps (c.id, c.addr) d h)
    | none => rw [hm] at h; simp at h

/-- C3 witness: bytes received on the wire are handed back verbatim. -/
theorem fetchData_wire_bytes_witness :
    (fetchData c3Self c3State (natToTag 0)
        ([some (Except.ok (some [1, 2, 3]))] : List (Option LocateResult))).1 =
        .found (some [1, 2, 3]) ∧
      (lookupTag c3State.data (natToTag 0) = some [1, 2, 3] ∨
        (some (Except.ok (some [1, 2, 3])) : Option LocateResult) ∈
          ([some (Except.ok (some [1, 2, 3]))] : List (Option LocateResult))) :=
  ⟨by decide,
    fetchData_wire_bytes c3Self c3State (natToTag 0)
      ([some (Except.ok (some [1, 2, 3]))] : List (Option LocateResult))
      [1, 2, 3] (by decide)⟩

/-- C3 counterexample: the peer answers the locate for the all-zero tag with
    bytes whose SHA3-256 digest is not that tag; `fetch_data` returns them
    anyway — there is no "integrity check failed" path. -/
theorem fetchData_integrity_counterexample :
    (fetchData c3Self c3State (natToTag 0)
        [some (Except.ok (some [1, 2, 3]))]).1 = .found (some [1, 2, 3]) ∧
      Tag.digest [1, 2, 3] ≠ natToTag 0 := by decide

/-! ### C6: strict descent and the hop bound of the lookup loop -/

theorem fetchLoop_hops_le (tag : Tag) (hT : tagWF tag) :
    ∀ (resps : List (Option LocateResult)) (closest : PublicId × Addr),
      tagWF closest.1.tag →
      (∀ p : PublicId × Addr, some (Except.error p) ∈ resps → tagWF p.1.tag) →
      (fetchLoop tag closest resps).2 ≤
        tagToNat (Tag.distTo closest.1.tag tag) := by
  intro resps
  induction resps with
  | nil => intro closest h1 h2; simp [fetchLoop]
  | cons r rest ih =>
    intro closest h1 h2
    match r with
    | none => simp [fetchLoop]
    | some (.ok d) => simp [fetchLoop]
    | some (.error next) =>
      simp only [fetchLoop]
      split
      case isTrue hlt =>
        have hnext : tagWF next.1.tag := h2 next (by simp)
        have hrec := ih next hnext (fun p hp => h2 p (List.mem_cons_of_mem _ hp))
        have hdlt : tagToNat (Tag.distTo next.1.tag tag) <
            tagToNat (Tag.distTo closest.1.tag tag) := by
          apply tagLtB_tagToNat
          · have ha := (tagWF_distTo _ _ hnext hT).1
            have hb := (tagWF_distTo _ _ h1 hT).1
            omega
          · exact (tagWF_distTo _ _ hnext hT).2
          · exact hlt
        dsimp only
        omega
      case isFalse _ => simp

/-- C6 (amended): every accepted `Err(next)` hop strictly decreases the XOR
    distance and a non-decreasing hop aborts the walk with `Ok(None)`; strict
    descent on a 256-bit quantity bounds the loop by the initial numeric
    distance — below `2 ^ 256` — but not by 256 (see the counterexample). -/
theorem fetchLoop_descent (tag : Tag) (closest : PublicId × Addr)
    (resps : List (Option LocateResult)) (hT : tagWF tag)
    (h1 : tagWF closest.1.tag)
    (h2 : ∀ p : PublicId × Addr, some (Except.error p) ∈ resps → tagWF p.1.tag) :
    (fetchLoop tag closest resps).2 ≤ tagToNat (Tag.distTo closest.1.tag tag) ∧
      (fetchLoop tag closest resps).2 < 2 ^ 256 ∧
      ∀ next rest, resps = some (Except.error next) :: rest →
        tagLtB (Tag.distTo next.1.tag tag) (Tag.distTo closest.1.tag tag) = false →
        fetchLoop tag closest resps = (.found none, 0) := by
  have hle := fetchLoop_hops_le tag hT resps closest h1 h2
  refine ⟨hle, ?_, ?_⟩
  · have hub := tagToNat_lt_two_pow _ (tagWF_distTo _ _ h1 hT)
    omega
  · intro next rest hr hfalse
    subst hr
    simp [fetchLoop, hfalse]

/-- C6 witness: the descent bound instantiated on a concrete hop. -/
theorem fetchLoop_descent_witness :
    (tagWF (natToTag 0) ∧ tagWF (c6Hop 258).1.tag) ∧
      ((fetchLoop (natToTag 0) (c6Hop 258) []).2 ≤
          tagToNat (Tag.distTo (c6Hop 258).1.tag (natToTag 0)) ∧
        (fetchLoop (natToTag 0) (c6Hop 258) []).2 < 2 ^ 256 ∧
        ∀ next rest, ([] : List (Option LocateResult)) =
            some (Except.error next) :: rest →
          tagLtB (Tag.distTo next.1.tag (natToTag 0))
            (Tag.distTo (c6Hop 258).1.tag (natToTag 0)) = false →
          fetchLoop (natToTag 0) (c6Hop 258) [] = (.found none, 0)) :=
  ⟨⟨by decide, by decide⟩,
    fetchLoop_descent (natToTag 0) (c6Hop 258) [] (by decide) (by decide)
      (by simp)⟩

/-- C6 counterexample: a trace of 257 strictly-decreasing redirections makes
    the loop take 257 hops, every one accepted — "at most 256 hops" is false. -/
theorem fetchData_hops_counterexample :
    (fetchData (c6Hop 0).1 c6State (natToTag 0) c6Resps).2 = 257 ∧
      ¬ (257 ≤ 256) := by decide

/-! ### C7: the discover walk neither checks levels nor evicts -/

theorem acceptPeer_peers_mono (selfId : PublicId) (st : NodeState)
    (id : PublicId) (addr : Addr) (pingOk : Bool) :
    ∀ e ∈ st.peers, e ∈ (acceptPeer selfId st id addr pingOk).state.peers := by
  intro e he
  simp only [acceptPeer]
  split
  · split
    · exact List.mem_append_left _ he
    · exact he
  · exact he

theorem discoverPeer_peers_mono (selfId : PublicId) (st : NodeState)
    (sup : Option PublicId) (addr : Addr)
    (gr : Option (Except (Option Addr) PublicId)) (pingOk : Bool) :
    ∀ e ∈ st.peers, e ∈ (discoverPeer selfId st sup addr gr pingOk).1.peers := by
  intro e he
  simp only [discoverPeer]
  split
  · cases gr with
    | none => exact he
    | some r =>
      cases r with
      | error alt => exact he
      | ok id =>
        dsimp only
        split
        · exact acceptPeer_peers_mono selfId st id addr pingOk e he
        · exact he
  · exact he

theorem discoverTickLoop_no_eviction (selfId : PublicId) :
    ∀ (levels : List Nat) (steps : List TickStep) (st : NodeState)
      (current : PublicId × Addr) (e : Nat × Peer), e ∈ st.peers →
      e ∈ (discoverTickLoop selfId st current levels steps).1.peers := by
  intro levels
  induction levels with
  | nil => intro steps st current e he; exact he
  | cons level levels ih =>
    intro steps st current e he
    simp only [discoverTickLoop]
    cases hd : (steps.headD { disc := .failed, greet := none, ping := false }).disc with
    | failed => exact ih steps.tail st current e he
    | noPeer => exact he
    | peer id addr =>
      exact ih steps.tail _ (id, addr) e
        (discoverPeer_peers_mono selfId st (some id) addr _ _ e he)

/-- C7 (amended): during a discover tick no peer is ever removed from the
    routing table (a misbehaving peer is not evicted) — but, unlike the claim
    says, the walk advances to whatever peer each response names, with no check
    of the returned peer's level (see the counterexample). -/
theorem discoverTick_no_eviction (selfId : PublicId) (st : NodeState)
    (current : PublicId × Addr) (steps : List TickStep) (e : Nat × Peer)
    (he : e ∈ st.peers) : e ∈ (discoverTick selfId st current steps).1.peers :=
  discoverTickLoop_no_eviction selfId (List.range 256).reverse steps st current e he

/-- C7 witness: non-eviction on a concrete tick. -/
theorem discoverTick_no_eviction_witness :
    ((0, { id := c7P1.1, addr := 20 }) : Nat × Peer) ∈ c7State.peers ∧
      ((0, { id := c7P1.1, addr := 20 }) : Nat × Peer) ∈
        (discoverTick c7Self c7State c7P0 c7Steps).1.peers :=
  ⟨by decide,
    discoverTick_no_eviction c7Self c7State c7P0 c7Steps _ (by decide)⟩

/-- C7 counterexample: at `max_level = 254` the response names `c7V`, whose
    level from self is 255 > 254 — a level-precondition violation. The walk
    still advances: the final current hop is `c7V` and the very next query
    (level 253) is addressed to `c7V`, so the tick does not terminate there. -/
theorem discover_walk_counterexample :
    Tag.level (Tag.distTo c7Self.tag c7V.1.tag) = 255 ∧ 254 < 255 ∧
      (discoverTick c7Self initState c7P0 c7Steps).2.1 = c7V ∧
      (c7V.2, 253) ∈ (discoverTick c7Self initState c7P0 c7Steps).2.2 := by
  decide

end Nettle
